import Mathlib

/-!
Verification of the SQL statement splitter of `deploy_schemas.py`
(`_split_sql_statements` and its inner `remove_comments`).

The Python source is embedded shallowly over `List Char`:

* `cutLineComments` models `re.sub(r'--.*?$', '', s, flags=re.MULTILINE)`:
  on every `'\n'`-separated line, everything from the first `--` to the end
  of the line is removed.
* `removeBlock` models `re.sub(r'/\*.*?\*/', remove_comments, s, flags=re.DOTALL)`:
  repeatedly find the first `/*`, then the first `*/` after it; the matched
  span is kept verbatim when `remove_comments` keeps it and dropped otherwise,
  and scanning resumes after the span.
* `normalizeLines` models
  `'\n'.join(line.strip() for line in s.splitlines() if line.strip())`.
* `scanLoop`/`stepChar` model the character loop with its `in_string`,
  `in_tblproperties` and `string_delimiter` variables, including the
  13-character case-insensitive `TBLPROPERTIES` lookahead performed at every
  position.
* `rawStatements`, `formatStmt` and `splitScan` model the trailing-statement
  handling and the final
  `[s + ';' if not s.endswith(';') else s for s in statements if s.strip()]`.
* `splitSqlStatements` is the whole function.
-/

set_option maxRecDepth 100000

namespace DeploySchemas

/-- Single quote character. -/
def sq : Char := '\''

/-- Double quote character. -/
def dq : Char := '"'

/-- Backtick character (code point 96). -/
def bq : Char := Char.ofNat 96

/-- Python `char in ("'", '"', "`")`. -/
def isQuoteChar (c : Char) : Bool := c = sq || c = dq || c = bq

/-- Python's default `str.strip` whitespace, restricted to ASCII:
space, tab, newline, carriage return, vertical tab, form feed. -/
def isPySpace (c : Char) : Bool :=
  c = ' ' || c = '\t' || c = '\n' || c = '\r' || c = Char.ofNat 11 || c = Char.ofNat 12

/-- Python `str.strip()`: drop leading and trailing whitespace. -/
def pyStrip (l : List Char) : List Char :=
  ((l.dropWhile isPySpace).reverse.dropWhile isPySpace).reverse

/-- The 13 characters of the keyword `TBLPROPERTIES`. -/
def tblKey : List Char := ['T', 'B', 'L', 'P', 'R', 'O', 'P', 'E', 'R', 'T', 'I', 'E', 'S']

/-- Python `sql_content[i:i+13].upper() == 'TBLPROPERTIES'`, with `l` the
suffix of the input starting at position `i`. -/
def lookTbl (l : List Char) : Bool := (l.take 13).map Char.toUpper = tblKey

/-- The scanner state of `_split_sql_statements`: accumulated `statements`,
the in-progress buffer `current`, and the `in_string` / `in_tblproperties` /
`string_delimiter` variables. -/
structure ScanState where
  stmts : List (List Char)
  cur : List Char
  inString : Bool
  inTbl : Bool
  delim : Option Char
deriving DecidableEq

/-- One iteration of the `for i, char in enumerate(sql_content)` body, after
the `TBLPROPERTIES` lookahead has already been applied to the state: the
`if/elif` chain on `char`. -/
def stepChar (st : ScanState) (c : Char) : ScanState :=
  if isQuoteChar c = true ∧ st.inString = false ∧ st.inTbl = false then
    { st with inString := true, delim := some c, cur := st.cur ++ [c] }
  else if st.delim = some c ∧ st.inString = true ∧ st.inTbl = false then
    { st with inString := false, cur := st.cur ++ [c] }
  else if c = ';' ∧ st.inString = false ∧ st.inTbl = false then
    { st with
      stmts := if pyStrip st.cur = [] then st.stmts else st.stmts ++ [pyStrip st.cur],
      cur := [] }
  else if c = ')' ∧ st.inTbl = true then
    { st with
      stmts := if pyStrip (st.cur ++ [c]) = [] then st.stmts
               else st.stmts ++ [pyStrip (st.cur ++ [c])],
      cur := [],
      inTbl := false }
  else
    { st with cur := st.cur ++ [c] }

/-- The character loop: at each position, first the 13-character lookahead
(`if sql_content[i:i+13].upper() == 'TBLPROPERTIES': in_tblproperties = True`),
then the `if/elif` chain. -/
def scanLoop : List Char → ScanState → ScanState
  | [], st => st
  | c :: rest, st =>
    scanLoop rest (stepChar (if lookTbl (c :: rest) then { st with inTbl := true } else st) c)

/-- The scanner loop without the lookahead; agrees with `scanLoop` on inputs
that contain no occurrence of the keyword (`scanLoop_eq_scanNT`). -/
def scanNT (l : List Char) (st : ScanState) : ScanState := l.foldl stepChar st

/-- The scanner's initial state. -/
def initState : ScanState := ⟨[], [], false, false, none⟩

/-- The statement list after the loop plus the trailing
`if current.strip(): statements.append(current.strip())`. -/
def rawStatements (l : List Char) : List (List Char) :=
  if pyStrip (scanLoop l initState).cur = [] then (scanLoop l initState).stmts
  else (scanLoop l initState).stmts ++ [pyStrip (scanLoop l initState).cur]

/-- Python `s.endswith(';')`. -/
def endsSemi (s : List Char) : Bool := s.getLast? = some ';'

/-- Python `s + ';' if not s.endswith(';') else s`. -/
def formatStmt (s : List Char) : List Char := if endsSemi s then s else s ++ [';']

/-- The splitter proper (`StatementSplitter`): the scan, the trailing
statement, and the final `[... for s in statements if s.strip()]`. -/
def splitScan (l : List Char) : List (List Char) :=
  ((rawStatements l).filter (fun s => pyStrip s ≠ [])).map formatStmt

/-- Find the first occurrence of `pat`: `some (before, after)` splits `l` as
`before ++ pat ++ after` at the leftmost match. -/
def breakOn (pat : List Char) : List Char → Option (List Char × List Char)
  | [] => if pat.isEmpty then some ([], []) else none
  | c :: l =>
    if pat.isPrefixOf (c :: l) then some ([], (c :: l).drop pat.length)
    else
      match breakOn pat l with
      | some (a, b) => some (c :: a, b)
      | none => none

/-- Python `pat in l` (substring test). -/
def containsSub (pat l : List Char) : Bool := (breakOn pat l).isSome

/-- The protected-marker test of the inner `remove_comments`:
`any(x in content.upper() for x in ['TBLPROPERTIES', 'CREATE ', 'SCHEMA '])`. -/
def protectedComment (content : List Char) : Bool :=
  containsSub tblKey (content.map Char.toUpper) ||
  containsSub ("CREATE ".toList) (content.map Char.toUpper) ||
  containsSub ("SCHEMA ".toList) (content.map Char.toUpper)

/-- The inner `remove_comments` replacement function: keep the matched
comment verbatim when it holds a protected marker, else drop it. -/
def remove_comments (content : List Char) : List Char :=
  if protectedComment content then content else []

/-- The two-character delimiters of a block comment. -/
def slashStar : List Char := ['/', '*']

/-- Closing delimiter of a block comment. -/
def starSlash : List Char := ['*', '/']

/-- Fuelled worker for `removeBlock`; the fuel only serves structural
termination and is irrelevant once larger than the input length. -/
def removeBlockFuel : Nat → List Char → List Char
  | 0, l => l
  | fuel + 1, l =>
    match breakOn slashStar l with
    | none => l
    | some (pre, rest) =>
      match breakOn starSlash rest with
      | none => l
      | some (mid, post) =>
        pre ++ remove_comments (slashStar ++ mid ++ starSlash) ++ removeBlockFuel fuel post

/-- `re.sub(r'/\*.*?\*/', remove_comments, s, flags=re.DOTALL)`: replace each
non-overlapping, non-greedy block-comment span by `remove_comments` of it. -/
def removeBlock (l : List Char) : List Char := removeBlockFuel (l.length + 1) l

/-- Split on `'\n'` keeping all (possibly empty) segments;
`List.intercalate ['\n']` is its inverse. -/
def splitNl : List Char → List (List Char)
  | [] => [[]]
  | c :: rest =>
    if c = '\n' then [] :: splitNl rest
    else
      match splitNl rest with
      | [] => [[c]]
      | a :: as => (c :: a) :: as

/-- Remove everything from the first `--` of a line onward. -/
def cutLine (l : List Char) : List Char :=
  match breakOn ['-', '-'] l with
  | none => l
  | some (a, _) => a

/-- `re.sub(r'--.*?$', '', s, flags=re.MULTILINE)`: on each line, drop the
suffix starting at the first `--`. -/
def cutLineComments (l : List Char) : List Char :=
  List.intercalate ['\n'] ((splitNl l).map cutLine)

/-- A Python line-boundary character (the ASCII and Unicode separators
recognized by `str.splitlines`). -/
def isNl (c : Char) : Bool :=
  c = '\n' || c = '\r' || c = Char.ofNat 11 || c = Char.ofNat 12 ||
  c = Char.ofNat 28 || c = Char.ofNat 29 || c = Char.ofNat 30 ||
  c = Char.ofNat 133 || c = Char.ofNat 8232 || c = Char.ofNat 8233

/-- Python `str.splitlines()`: split at line boundaries, treating `\r\n` as a
single boundary and emitting no trailing empty line. -/
def splitlinesPy : List Char → List (List Char)
  | [] => []
  | '\r' :: '\n' :: rest => [] :: splitlinesPy rest
  | c :: rest =>
    if isNl c then [] :: splitlinesPy rest
    else
      match splitlinesPy rest with
      | [] => [[c]]
      | a :: as => (c :: a) :: as

/-- `'\n'.join(line.strip() for line in s.splitlines() if line.strip())`. -/
def normalizeLines (l : List Char) : List Char :=
  List.intercalate ['\n'] (((splitlinesPy l).map pyStrip).filter (fun s => !s.isEmpty))

/-- The comment-processing prefix of `_split_sql_statements`: line comments,
block comments, whitespace normalization, in source order. -/
def preprocess (l : List Char) : List Char :=
  normalizeLines (removeBlock (cutLineComments l))

/-- The whole `_split_sql_statements`. -/
def splitSqlStatements (l : List Char) : List (List Char) :=
  splitScan (preprocess l)

/-! ### Basic facts about `pyStrip` -/

lemma dropWhile_head_false (p : Char → Bool) (l : List Char) :
    l.dropWhile p = [] ∨ ∃ c t, l.dropWhile p = c :: t ∧ p c = false := by
  induction l with
  | nil => exact Or.inl rfl
  | cons c t ih =>
    by_cases h : p c = true
    · simpa [List.dropWhile, h] using ih
    · exact Or.inr ⟨c, t, by simp [List.dropWhile, h], by simpa using h⟩

lemma dropWhile_eq_self_of_head (p : Char → Bool) (l : List Char)
    (h : ∀ c, l.head? = some c → p c = false) : l.dropWhile p = l := by
  cases l with
  | nil => rfl
  | cons c t => simp [List.dropWhile, h c rfl]

lemma getLast?_of_suffix {l₁ l₂ : List Char} (h : l₁ <:+ l₂) (hne : l₁ ≠ []) :
    l₂.getLast? = l₁.getLast? := by
  obtain ⟨a, rfl⟩ := h
  rw [List.getLast?_append_of_ne_nil _ hne]

lemma pyStrip_last (l : List Char) (c : Char) (h : (pyStrip l).getLast? = some c) :
    isPySpace c = false := by
  unfold pyStrip at h
  rw [List.getLast?_reverse] at h
  rcases dropWhile_head_false isPySpace (l.dropWhile isPySpace).reverse with h0 | ⟨d, t, hd, hp⟩
  · rw [h0] at h; simp at h
  · rw [hd] at h; simp at h; rwa [h] at hp

lemma pyStrip_head (l : List Char) (c : Char) (h : (pyStrip l).head? = some c) :
    isPySpace c = false := by
  unfold pyStrip at h
  rw [List.head?_reverse] at h
  have hsfx := List.dropWhile_suffix (l := (l.dropWhile isPySpace).reverse) isPySpace
  have hne : (l.dropWhile isPySpace).reverse.dropWhile isPySpace ≠ [] := by
    intro h0; rw [h0] at h; simp at h
  rw [← getLast?_of_suffix hsfx hne, List.getLast?_reverse] at h
  rcases dropWhile_head_false isPySpace l with h0 | ⟨d, t, hd, hp⟩
  · rw [h0] at h; simp at h
  · rw [hd] at h; simp at h; rwa [h] at hp

lemma pyStrip_of_ends (l : List Char)
    (h1 : ∀ c, l.head? = some c → isPySpace c = false)
    (h2 : ∀ c, l.getLast? = some c → isPySpace c = false) : pyStrip l = l := by
  unfold pyStrip
  rw [dropWhile_eq_self_of_head _ _ h1]
  rw [dropWhile_eq_self_of_head _ _ (by simpa [List.head?_reverse] using h2)]
  exact List.reverse_reverse l

lemma pyStrip_idem (l : List Char) : pyStrip (pyStrip l) = pyStrip l :=
  pyStrip_of_ends _ (pyStrip_head l) (pyStrip_last l)

lemma pyStrip_eq_nil_iff (l : List Char) :
    pyStrip l = [] ↔ ∀ x ∈ l, isPySpace x = true := by
  unfold pyStrip
  rw [List.reverse_eq_nil_iff, List.dropWhile_eq_nil_iff]
  constructor
  · intro h x hx
    rcases List.mem_append.1 (by rw [List.takeWhile_append_dropWhile (p := isPySpace) (l := l)]; exact hx :
        x ∈ l.takeWhile isPySpace ++ l.dropWhile isPySpace) with h1 | h1
    · exact List.mem_takeWhile_imp h1
    · exact h x (List.mem_reverse.2 h1)
  · intro h x hx
    have : x ∈ l.dropWhile isPySpace := List.mem_reverse.1 hx
    exact h x ((List.dropWhile_suffix isPySpace).subset this)

lemma pyStrip_snoc_ne_nil (l : List Char) (c : Char) (hc : isPySpace c = false) :
    pyStrip (l ++ [c]) ≠ [] := by
  intro h
  have := (pyStrip_eq_nil_iff _).1 h c (by simp)
  rw [this] at hc; exact absurd hc (by simp)

lemma pyStrip_ws_prefix (pre l : List Char) (h : ∀ x ∈ pre, isPySpace x = true) :
    pyStrip (pre ++ l) = pyStrip l := by
  unfold pyStrip
  rw [List.dropWhile_append, if_pos (by simp [List.dropWhile_eq_nil_iff]; exact h)]

lemma pyStrip_snoc_stripped (s : List Char) (c : Char) (hs : pyStrip s = s) (hne : s ≠ [])
    (hc : isPySpace c = false) : pyStrip (s ++ [c]) = s ++ [c] := by
  apply pyStrip_of_ends
  · intro d hd
    rw [List.head?_append_of_ne_nil _ hne] at hd
    exact pyStrip_head s d (by rwa [hs])
  · intro d hd
    rw [List.getLast?_concat] at hd
    cases hd; exact hc

/-! ### Single-step facts about the scanner -/

lemma withInTbl_self (st : ScanState) (h : st.inTbl = true) :
    ({ st with inTbl := true } : ScanState) = st := by
  cases st with
  | mk a b c d e => cases h; rfl

lemma lookTbl_cons_of_head (c : Char) (l : List Char) (h : c.toUpper ≠ 'T') :
    lookTbl (c :: l) = false := by
  unfold lookTbl
  rw [show (13 : Nat) = 12 + 1 from rfl, List.take_succ_cons, List.map_cons]
  simp only [tblKey, decide_eq_false_iff_not]
  intro hEq
  exact h (List.cons.injEq .. ▸ hEq).1

lemma scanLoop_cons (c : Char) (rest : List Char) (st : ScanState) :
    scanLoop (c :: rest) st =
      scanLoop rest (stepChar (if lookTbl (c :: rest) then { st with inTbl := true } else st) c) :=
  rfl

/-- Scanning a `;` while inside a string (and not in a TBLPROPERTIES region)
only appends it to the buffer: no statement is emitted. -/
lemma stepChar_semi_quoted (st : ScanState) (q : Char) (hs : st.inString = true)
    (ht : st.inTbl = false) (hq : isQuoteChar q = true) (hd : st.delim = some q) :
    stepChar st ';' = { st with cur := st.cur ++ [';'] } := by
  unfold stepChar
  simp only [hs, ht, hd]
  rw [if_neg (by simp), if_neg ?c2, if_neg (by simp), if_neg (by simp)]
  case c2 =>
    rintro ⟨h, -, -⟩
    injection h with h
    subst h
    exact absurd hq (by decide)

lemma scanLoop_semi_quoted (st : ScanState) (q : Char) (rest : List Char)
    (hs : st.inString = true) (ht : st.inTbl = false) (hq : isQuoteChar q = true)
    (hd : st.delim = some q) :
    scanLoop (';' :: rest) st = scanLoop rest { st with cur := st.cur ++ [';'] } := by
  rw [scanLoop_cons, lookTbl_cons_of_head ';' rest (by decide), if_neg (by simp)]
  rw [stepChar_semi_quoted st q hs ht hq hd]

/-- While in a TBLPROPERTIES region, any character other than `)` is only
appended to the buffer; the region stays active and no statement is emitted. -/
lemma stepChar_tbl_append (st : ScanState) (c : Char) (ht : st.inTbl = true) (hc : c ≠ ')') :
    stepChar st c = { st with cur := st.cur ++ [c] } := by
  unfold stepChar
  simp only [ht]
  rw [if_neg (by simp), if_neg (by simp), if_neg (by simp),
    if_neg (by rintro ⟨h, -⟩; exact hc h)]

lemma scanLoop_tbl_append (st : ScanState) (c : Char) (rest : List Char)
    (ht : st.inTbl = true) (hc : c ≠ ')') :
    scanLoop (c :: rest) st = scanLoop rest { st with cur := st.cur ++ [c] } := by
  rw [scanLoop_cons]
  by_cases h : lookTbl (c :: rest) = true
  · rw [if_pos h, withInTbl_self st ht, stepChar_tbl_append st c ht hc]
  · rw [if_neg h, stepChar_tbl_append st c ht hc]

/-- While in a TBLPROPERTIES region, the first `)` appends itself, emits the
whole buffer as a completed statement and closes the region, leaving the
string state untouched. -/
lemma stepChar_tbl_close (st : ScanState) (ht : st.inTbl = true) :
    stepChar st ')' =
      { st with stmts := st.stmts ++ [pyStrip (st.cur ++ [')'])], cur := [], inTbl := false } := by
  unfold stepChar
  simp only [ht]
  rw [if_neg (by simp), if_neg (by simp), if_neg (by simp), if_pos (by simp),
    if_neg (pyStrip_snoc_ne_nil _ _ (by decide))]

lemma scanLoop_tbl_close (st : ScanState) (rest : List Char) (ht : st.inTbl = true) :
    scanLoop (')' :: rest) st =
      scanLoop rest
        { st with stmts := st.stmts ++ [pyStrip (st.cur ++ [')'])], cur := [], inTbl := false } := by
  rw [scanLoop_cons, lookTbl_cons_of_head ')' rest (by decide), if_neg (by simp)]
  rw [stepChar_tbl_close st ht]

/-! ### Concrete example inputs from the specification -/

/-- `INSERT INTO t VALUES ('a;b');` -/
def exC1 : List Char :=
  "INSERT INTO t VALUES (".toList ++ [sq] ++ "a;b".toList ++ [sq] ++ ");".toList

/-- `CREATE TABLE t (id INT) TBLPROPERTIES ('delta.a' = 'x;y');` -/
def exC2 : List Char :=
  "CREATE TABLE t (id INT) TBLPROPERTIES (".toList ++ [sq] ++ "delta.a".toList ++ [sq] ++
  " = ".toList ++ [sq] ++ "x;y".toList ++ [sq] ++ ");".toList

/-- `CREATE TABLE t TBLPROPERTIES (a = (b));` — nested parentheses. -/
def exC3 : List Char := "CREATE TABLE t TBLPROPERTIES (a = (b));".toList

/-- `'TBLPROPERTIES);a';` — the keyword detected inside an open quote. -/
def exTblQuote : List Char := [sq] ++ "TBLPROPERTIES);a".toList ++ [sq] ++ [';']

/-! ### Claims C1, C2, C3, C10 -/

/-- C1: a `;` scanned while the scanner is inside a quoted region (after an
opening `'`, `"` or backtick whose delimiter is remembered in `delim`), with
no TBLPROPERTIES region active, is never a split point: the step only appends
the `;` to the current buffer and emits nothing.  In particular
`split("INSERT INTO t VALUES ('a;b');")` is exactly the one statement
`INSERT INTO t VALUES ('a;b');`. -/
theorem C1_quoted_semicolon_never_split_point :
    (∀ (st : ScanState) (q : Char) (rest : List Char),
        st.inString = true → st.inTbl = false → isQuoteChar q = true → st.delim = some q →
        scanLoop (';' :: rest) st = scanLoop rest { st with cur := st.cur ++ [';'] }) ∧
    splitSqlStatements exC1 = [exC1] :=
  ⟨fun st q rest hs ht hq hd => scanLoop_semi_quoted st q rest hs ht hq hd, by decide⟩

theorem C1_quoted_semicolon_never_split_point_witness :
    scanLoop [';'] (⟨[], ['a'], true, false, some sq⟩ : ScanState) =
      scanLoop [] { (⟨[], ['a'], true, false, some sq⟩ : ScanState) with cur := ['a'] ++ [';'] } :=
  C1_quoted_semicolon_never_split_point.1 _ sq [] rfl rfl (by decide) rfl

/-- C2: inside a TBLPROPERTIES region every character other than `)` —
semicolons and quote characters included — is only buffered, and the first
`)` emits the whole buffered clause as one statement ending at that `)`.
In particular `split("CREATE TABLE t (id INT) TBLPROPERTIES ('delta.a' = 'x;y');")`
is exactly that one statement, with no split at the interior `;`. -/
theorem C2_tblproperties_clause_never_split_internally :
    (∀ (st : ScanState) (c : Char) (rest : List Char),
        st.inTbl = true → c ≠ ')' →
        scanLoop (c :: rest) st = scanLoop rest { st with cur := st.cur ++ [c] }) ∧
    (∀ (st : ScanState) (rest : List Char),
        st.inTbl = true →
        scanLoop (')' :: rest) st =
          scanLoop rest { st with stmts := st.stmts ++ [pyStrip (st.cur ++ [')'])], cur := [], inTbl := false }) ∧
    splitSqlStatements exC2 = [exC2] :=
  ⟨fun st c rest ht hc => scanLoop_tbl_append st c rest ht hc,
   fun st rest ht => scanLoop_tbl_close st rest ht, by decide⟩

theorem C2_tblproperties_clause_never_split_internally_witness :
    scanLoop [';'] (⟨[], ['('], false, true, none⟩ : ScanState) =
        scanLoop [] { (⟨[], ['('], false, true, none⟩ : ScanState) with cur := ['('] ++ [';'] } ∧
    scanLoop [')'] (⟨[], ['('], false, true, none⟩ : ScanState) =
        scanLoop [] { (⟨[], ['('], false, true, none⟩ : ScanState) with stmts := [] ++ [pyStrip (['('] ++ [')'])], cur := [], inTbl := false } :=
  ⟨C2_tblproperties_clause_never_split_internally.1 _ ';' [] rfl (by decide),
   C2_tblproperties_clause_never_split_internally.2.1 _ [] rfl⟩

/-- C3: once the scanner is in a TBLPROPERTIES region, a `(` is merely
appended (the region flag is unchanged — nested parentheses are not
tracked), and the first `)` closes the region and ends the current
statement.  Concretely, `split("CREATE TABLE t TBLPROPERTIES (a = (b));")`
already ends its first statement at the inner `)`. -/
theorem C3_first_close_paren_ends_region :
    (∀ (st : ScanState) (rest : List Char),
        st.inTbl = true →
        scanLoop ('(' :: rest) st = scanLoop rest { st with cur := st.cur ++ ['('] }) ∧
    (∀ (st : ScanState) (rest : List Char),
        st.inTbl = true →
        scanLoop (')' :: rest) st =
          scanLoop rest { st with stmts := st.stmts ++ [pyStrip (st.cur ++ [')'])], cur := [], inTbl := false }) ∧
    splitSqlStatements exC3 =
      ["CREATE TABLE t TBLPROPERTIES (a = (b);".toList, ");".toList] :=
  ⟨fun st rest ht => scanLoop_tbl_append st '(' rest ht (by decide),
   fun st rest ht => scanLoop_tbl_close st rest ht, by decide⟩

theorem C3_first_close_paren_ends_region_witness :
    scanLoop ['('] (⟨[], [], false, true, none⟩ : ScanState) =
        scanLoop [] { (⟨[], [], false, true, none⟩ : ScanState) with cur := [] ++ ['('] } ∧
    scanLoop [')'] (⟨[], ['('], false, true, none⟩ : ScanState) =
        scanLoop [] { (⟨[], ['('], false, true, none⟩ : ScanState) with stmts := [] ++ [pyStrip (['('] ++ [')'])], cur := [], inTbl := false } :=
  ⟨C3_first_close_paren_ends_region.1 _ [] rfl,
   C3_first_close_paren_ends_region.2.1 _ [] rfl⟩

/-- C10: closing a TBLPROPERTIES region at `)` never clears the in-quote
state: the step that closes the region and emits the buffer leaves
`inString` and the remembered delimiter untouched.  Concretely, for
`'TBLPROPERTIES);a';` (keyword detected inside an open quote), after the
region closes at `)` the `;` does not end a statement — only the `;`
after the closing `'` does. -/
theorem C10_tbl_close_preserves_quote_state :
    (∀ st : ScanState, st.inTbl = true →
        (stepChar st ')').inString = st.inString ∧ (stepChar st ')').delim = st.delim ∧
        (stepChar st ')').inTbl = false) ∧
    (∀ (st : ScanState) (q : Char) (rest : List Char),
        st.inString = true → st.inTbl = false → isQuoteChar q = true → st.delim = some q →
        scanLoop (';' :: rest) st = scanLoop rest { st with cur := st.cur ++ [';'] }) ∧
    splitSqlStatements exTblQuote =
      [[sq] ++ "TBLPROPERTIES)".toList ++ [';'], ";a".toList ++ [sq] ++ [';']] :=
  ⟨fun st ht => by rw [stepChar_tbl_close st ht]; exact ⟨rfl, rfl, rfl⟩,
   fun st q rest hs ht hq hd => scanLoop_semi_quoted st q rest hs ht hq hd, by decide⟩

theorem C10_tbl_close_preserves_quote_state_witness :
    (stepChar (⟨[], ['x'], true, true, some sq⟩ : ScanState) ')').inString =
        (⟨[], ['x'], true, true, some sq⟩ : ScanState).inString ∧
      (stepChar (⟨[], ['x'], true, true, some sq⟩ : ScanState) ')').delim =
        (⟨[], ['x'], true, true, some sq⟩ : ScanState).delim ∧
      (stepChar (⟨[], ['x'], true, true, some sq⟩ : ScanState) ')').inTbl = false :=
  C10_tbl_close_preserves_quote_state.1 _ rfl

/-! ### Shape of the emitted statements (claim C4) -/

lemma stepChar_stmts (st : ScanState) (c : Char) :
    (stepChar st c).stmts = st.stmts ∨
      ∃ s, pyStrip s = s ∧ s ≠ [] ∧ (stepChar st c).stmts = st.stmts ++ [s] := by
  unfold stepChar
  split_ifs with h1 h2 h3 h4 h5 h6
  · exact Or.inl rfl
  · exact Or.inl rfl
  · exact Or.inl rfl
  · exact Or.inr ⟨pyStrip st.cur, pyStrip_idem _, h4, rfl⟩
  · exact Or.inl rfl
  · exact Or.inr ⟨pyStrip (st.cur ++ [c]), pyStrip_idem _, h6, rfl⟩
  · exact Or.inl rfl

lemma scanLoop_stmts_inv (l : List Char) (st : ScanState)
    (h : ∀ s ∈ st.stmts, pyStrip s = s ∧ s ≠ []) :
    ∀ s ∈ (scanLoop l st).stmts, pyStrip s = s ∧ s ≠ [] := by
  induction l generalizing st with
  | nil => exact h
  | cons c rest ih =>
    rw [scanLoop_cons]
    apply ih
    set st1 := if lookTbl (c :: rest) then { st with inTbl := true } else st with hst1
    have hstmts : st1.stmts = st.stmts := by
      rw [hst1]; split_ifs <;> rfl
    rcases stepChar_stmts st1 c with h0 | ⟨s, hs1, hs2, h0⟩
    · rw [h0, hstmts]; exact h
    · rw [h0, hstmts]
      intro t ht
      rcases List.mem_append.1 ht with ht | ht
      · exact h t ht
      · rw [List.mem_singleton.1 ht]; exact ⟨hs1, hs2⟩

lemma rawStatements_inv (l : List Char) :
    ∀ s ∈ rawStatements l, pyStrip s = s ∧ s ≠ [] := by
  intro s hs
  unfold rawStatements at hs
  have base := scanLoop_stmts_inv l initState (by intro t ht; cases ht)
  split_ifs at hs with h
  · exact base s hs
  · rcases List.mem_append.1 hs with hs | hs
    · exact base s hs
    · rw [List.mem_singleton.1 hs]; exact ⟨pyStrip_idem _, h⟩

lemma splitScan_eq_map (l : List Char) :
    splitScan l = (rawStatements l).map formatStmt := by
  unfold splitScan
  congr 1
  rw [List.filter_eq_self]
  intro s hs
  have := (rawStatements_inv l s hs).2
  have h1 := (rawStatements_inv l s hs).1
  simp only [ne_eq, decide_eq_true_eq]
  rw [h1]; exact this

lemma splitScan_mem (l : List Char) (s : List Char) (h : s ∈ splitScan l) :
    s ≠ [] ∧ pyStrip s = s ∧ s.getLast? = some ';' := by
  rw [splitScan_eq_map] at h
  rcases List.mem_map.1 h with ⟨t, ht, rfl⟩
  rcases rawStatements_inv l t ht with ⟨hstrip, hne⟩
  unfold formatStmt
  split_ifs with he
  · refine ⟨hne, hstrip, ?_⟩
    unfold endsSemi at he
    exact of_decide_eq_true he
  · refine ⟨by simp, pyStrip_snoc_stripped t ';' hstrip hne (by decide), List.getLast?_concat _⟩

/-- Python truthiness: `s` ends with exactly one `;` (its last character is
`;` and the one before is not). -/
def endsWithExactlyOneSemi (s : List Char) : Bool := endsSemi s && !endsSemi s.dropLast

/-- `'a;;` — an unterminated quote whose buffered text ends in two
semicolons. -/
def exC4 : List Char := [sq] ++ "a;;".toList

/-- C4 counterexample: on the input `'a;;` the splitter returns the single
statement `'a;;`, which ends in two semicolons, so "ends with exactly one
`;`" fails for the output of the code as written. -/
theorem C4_exactly_one_semicolon_counterexample :
    splitSqlStatements exC4 = [exC4] ∧
      (splitSqlStatements exC4).all endsWithExactlyOneSemi = false := by decide

/-- C4 (amended): every string returned by the splitter is non-empty, has no
leading or trailing whitespace, and ends with a `;` (at least one — a
statement whose buffered text already ends in `;` is not given another, but
may end in several); all-whitespace candidates are dropped, so
`split("   ;  ;  ")` is the empty sequence. -/
theorem C4_statements_trimmed_nonempty_end_semi :
    (∀ (l : List Char) (s : List Char), s ∈ splitScan l →
        s ≠ [] ∧ pyStrip s = s ∧ s.getLast? = some ';') ∧
    splitSqlStatements "   ;  ;  ".toList = [] :=
  ⟨fun l s h => splitScan_mem l s h, by decide⟩

theorem C4_statements_trimmed_nonempty_end_semi_witness :
    "SELECT 1;".toList ≠ [] ∧ pyStrip "SELECT 1;".toList = "SELECT 1;".toList ∧
      "SELECT 1;".toList.getLast? = some ';' :=
  C4_statements_trimmed_nonempty_end_semi.1 ("SELECT 1".toList) _ (by decide)

/-! ### Counting the emitted statements (claim C6) -/

/-- Reduced state for counting split events: the scanner flags (without the
buffer contents), whether the buffer is still all-whitespace, and three
counters: all `;` characters scanned outside quotes and outside TBLPROPERTIES
regions, the effective ones among them (buffer non-whitespace, hence a
statement emitted), and the TBLPROPERTIES-region closures. -/
structure CountState where
  semisAll : Nat
  semisEff : Nat
  closes : Nat
  inString : Bool
  inTbl : Bool
  delim : Option Char
  bufWs : Bool
deriving DecidableEq

/-- The counting analogue of `stepChar`. -/
def countStep (cs : CountState) (c : Char) : CountState :=
  if isQuoteChar c = true ∧ cs.inString = false ∧ cs.inTbl = false then
    { cs with inString := true, delim := some c, bufWs := cs.bufWs && isPySpace c }
  else if cs.delim = some c ∧ cs.inString = true ∧ cs.inTbl = false then
    { cs with inString := false, bufWs := cs.bufWs && isPySpace c }
  else if c = ';' ∧ cs.inString = false ∧ cs.inTbl = false then
    { cs with
      semisAll := cs.semisAll + 1,
      semisEff := if cs.bufWs = true then cs.semisEff else cs.semisEff + 1,
      bufWs := true }
  else if c = ')' ∧ cs.inTbl = true then
    { cs with closes := cs.closes + 1, inTbl := false, bufWs := true }
  else
    { cs with bufWs := cs.bufWs && isPySpace c }

/-- The counting analogue of `scanLoop`. -/
def countLoop : List Char → CountState → CountState
  | [], cs => cs
  | c :: rest, cs =>
    countLoop rest (countStep (if lookTbl (c :: rest) then { cs with inTbl := true } else cs) c)

/-- Initial counting state. -/
def initCount : CountState := ⟨0, 0, 0, false, false, none, true⟩

/-- Number of `;` characters scanned outside quoted regions and outside
TBLPROPERTIES regions (the count used by the claim). -/
def semisOutsideCount (l : List Char) : Nat := (countLoop l initCount).semisAll

/-- Number of `;` characters scanned outside quoted regions and outside
TBLPROPERTIES regions at which the buffer holds non-whitespace content. -/
def effSemiCount (l : List Char) : Nat := (countLoop l initCount).semisEff

/-- Number of TBLPROPERTIES-region closures. -/
def tblCloseCount (l : List Char) : Nat := (countLoop l initCount).closes

/-- 1 when trailing non-whitespace content exists, else 0. -/
def trailingCount (l : List Char) : Nat := if (countLoop l initCount).bufWs then 0 else 1

/-- The counting state tracks the scanner state. -/
def CountRel (st : ScanState) (cs : CountState) : Prop :=
  cs.inString = st.inString ∧ cs.inTbl = st.inTbl ∧ cs.delim = st.delim ∧
    (cs.bufWs = true ↔ pyStrip st.cur = [])

lemma pyStrip_snoc_nil_iff (l : List Char) (c : Char) :
    pyStrip (l ++ [c]) = [] ↔ (pyStrip l = [] ∧ isPySpace c = true) := by
  rw [pyStrip_eq_nil_iff, pyStrip_eq_nil_iff]
  constructor
  · intro h
    exact ⟨fun x hx => h x (List.mem_append.2 (Or.inl hx)), h c (by simp)⟩
  · rintro ⟨h1, h2⟩ x hx
    rcases List.mem_append.1 hx with hx | hx
    · exact h1 x hx
    · rw [List.mem_singleton.1 hx]; exact h2

lemma pyStrip_nil : pyStrip [] = [] := rfl

lemma countStep_rel (st : ScanState) (cs : CountState) (c : Char) (h : CountRel st cs) :
    CountRel (stepChar st c) (countStep cs c) ∧
      (stepChar st c).stmts.length + cs.semisEff + cs.closes =
        st.stmts.length + (countStep cs c).semisEff + (countStep cs c).closes := by
  obtain ⟨h1, h2, h3, h4⟩ := h
  unfold stepChar countStep
  rw [h1, h2, h3]
  simp only [h4]
  split_ifs with hq hd hs hw hp hw2
  · refine ⟨⟨rfl, rfl, rfl, ?_⟩, by simp⟩
    simp only [Bool.and_eq_true, pyStrip_snoc_nil_iff, h4]
  · refine ⟨⟨rfl, rfl, rfl, ?_⟩, by simp⟩
    simp only [Bool.and_eq_true, pyStrip_snoc_nil_iff, h4]
  · -- `;` outside, buffer all-whitespace: nothing emitted, nothing counted
    exact ⟨⟨rfl, rfl, rfl, by simp [pyStrip_nil]⟩, by simp⟩
  · -- `;` outside, non-whitespace buffer: one statement, one effective count
    refine ⟨⟨rfl, rfl, rfl, by simp [pyStrip_nil]⟩, ?_⟩
    simp only [List.length_append, List.length_singleton]
    omega
  · -- `)` closing the region cannot leave an all-whitespace buffer
    obtain ⟨hc, -⟩ := hp
    subst hc
    exact absurd hw2 (pyStrip_snoc_ne_nil _ _ (by decide))
  · -- `)` closing the region: one statement, one closure
    refine ⟨⟨rfl, rfl, rfl, by simp [pyStrip_nil]⟩, ?_⟩
    simp only [List.length_append, List.length_singleton]
    omega
  · refine ⟨⟨rfl, rfl, rfl, ?_⟩, by simp⟩
    simp only [Bool.and_eq_true, pyStrip_snoc_nil_iff, h4]

lemma countLoop_rel (l : List Char) (st : ScanState) (cs : CountState) (h : CountRel st cs) :
    CountRel (scanLoop l st) (countLoop l cs) ∧
      (scanLoop l st).stmts.length + cs.semisEff + cs.closes =
        st.stmts.length + (countLoop l cs).semisEff + (countLoop l cs).closes := by
  induction l generalizing st cs with
  | nil => exact ⟨h, rfl⟩
  | cons c rest ih =>
    rw [scanLoop_cons, show countLoop (c :: rest) cs =
      countLoop rest (countStep (if lookTbl (c :: rest) then { cs with inTbl := true } else cs) c)
      from rfl]
    set st1 := if lookTbl (c :: rest) then { st with inTbl := true } else st with hst1
    set cs1 := if lookTbl (c :: rest) then { cs with inTbl := true } else cs with hcs1
    have hrel1 : CountRel st1 cs1 ∧ cs1.semisEff = cs.semisEff ∧ cs1.closes = cs.closes ∧
        st1.stmts = st.stmts := by
      rw [hst1, hcs1]
      obtain ⟨h1, h2, h3, h4⟩ := h
      split_ifs
      · exact ⟨⟨h1, rfl, h3, h4⟩, rfl, rfl, rfl⟩
      · exact ⟨⟨h1, h2, h3, h4⟩, rfl, rfl, rfl⟩
    obtain ⟨hrel, heff, hclo, hstm⟩ := hrel1
    obtain ⟨hrel2, hlen2⟩ := countStep_rel st1 cs1 c hrel
    obtain ⟨hrel3, hlen3⟩ := ih _ _ hrel2
    refine ⟨hrel3, ?_⟩
    rw [heff, hclo, hstm] at *
    omega

/-- `;` at the claim's example input. -/
def exC6 : List Char := [';']

/-- C6 counterexample: on input `;` one `;` is scanned outside any quoted or
TBLPROPERTIES region, there are no closures and no trailing content, so the
claimed count is 1, but the splitter emits no statement (the buffer is
empty, and empty statements are skipped). -/
theorem C6_statement_count_counterexample :
    (splitSqlStatements exC6).length = 0 ∧
      semisOutsideCount exC6 + tblCloseCount exC6 + trailingCount exC6 = 1 := by decide

/-- C6 (amended): for every input, the number of statements emitted by the
splitter equals the number of `;` characters scanned outside quoted regions
and outside TBLPROPERTIES regions at which the accumulated buffer holds
non-whitespace content, plus the number of TBLPROPERTIES-region closures,
plus 1 if trailing non-whitespace content exists and 0 otherwise. -/
theorem C6_statement_count :
    ∀ l : List Char,
      (splitScan l).length = effSemiCount l + tblCloseCount l + trailingCount l := by
  intro l
  rw [splitScan_eq_map, List.length_map]
  have hinit : CountRel initState initCount := ⟨rfl, rfl, rfl, by constructor <;> intro <;> rfl⟩
  obtain ⟨⟨-, -, -, hbuf⟩, hlen⟩ := countLoop_rel l initState initCount hinit
  rw [show initCount.semisEff = 0 from rfl, show initCount.closes = 0 from rfl,
    show initState.stmts.length = 0 from rfl] at hlen
  unfold rawStatements effSemiCount tblCloseCount trailingCount
  split_ifs with h1 h2 h2
  · omega
  · exact absurd (hbuf.2 h1) h2
  · exact absurd (hbuf.1 h2) h1
  · rw [List.length_append]
    simp only [List.length_singleton]
    omega

/-! ### Substring search: `breakOn` and `containsSub` -/

lemma breakOn_eq_append {pat : List Char} :
    ∀ {l a b : List Char}, breakOn pat l = some (a, b) → l = a ++ pat ++ b := by
  intro l
  induction l with
  | nil =>
    intro a b h
    unfold breakOn at h
    split_ifs at h with hp
    · obtain ⟨rfl, rfl⟩ : [] = a ∧ [] = b := by
        simpa [Prod.ext_iff] using h
      simp only [List.isEmpty_iff] at hp
      simp [hp]
  | cons c l ih =>
    intro a b h
    unfold breakOn at h
    split_ifs at h with hp
    · obtain ⟨rfl, rfl⟩ : [] = a ∧ (c :: l).drop pat.length = b := by
        simpa [Prod.ext_iff] using h
      obtain ⟨t, ht⟩ := List.isPrefixOf_iff_prefix.1 hp
      rw [← ht, List.drop_left, List.nil_append]
    · revert h
      cases hbr : breakOn pat l with
      | none => intro h; cases h
      | some ab =>
        obtain ⟨a', b'⟩ := ab
        intro h
        obtain ⟨rfl, rfl⟩ : c :: a' = a ∧ b' = b := by
          simpa [Prod.ext_iff] using h
        rw [List.cons_append, List.cons_append, ← ih hbr]

lemma containsSub_spec (pat l : List Char) :
    containsSub pat l = true ↔ pat <:+: l := by
  unfold containsSub
  induction l with
  | nil =>
    unfold breakOn
    split_ifs with hp
    · simp only [List.isEmpty_iff] at hp
      subst hp
      exact iff_of_true rfl List.nil_infix
    · constructor
      · intro h; exact absurd h (by simp)
      · intro h
        simp only [List.isEmpty_iff] at hp
        exact absurd (List.sublist_nil.1 h.sublist) hp
  | cons c l ih =>
    unfold breakOn
    split_ifs with hp
    · exact iff_of_true rfl (List.isPrefixOf_iff_prefix.1 hp).isInfix
    · rw [List.infix_cons_iff]
      cases hbr : breakOn pat l with
      | none =>
        rw [hbr] at ih
        constructor
        · intro h; exact absurd h (by simp)
        · rintro (h | h)
          · exact absurd (List.isPrefixOf_iff_prefix.2 h) hp
          · exact absurd (ih.2 h) (by simp)
      | some ab =>
        obtain ⟨a, b⟩ := ab
        rw [hbr] at ih
        refine iff_of_true rfl (Or.inr (ih.1 rfl))

lemma not_infix_of_containsSub_false {pat l : List Char} (h : containsSub pat l = false) :
    ¬ pat <:+: l := fun hc => by
  rw [(containsSub_spec pat l).2 hc] at h; cases h

/-- The first occurrence of a two-character pattern `[x, y]` with `x ≠ y` in
`a ++ [x, y] ++ b`, when `a` holds no occurrence, is the explicit one. -/
lemma breakOn_first {x y : Char} (hxy : x ≠ y) :
    ∀ {a : List Char} (b : List Char), ¬ [x, y] <:+: a →
      breakOn [x, y] (a ++ [x, y] ++ b) = some (a, b) := by
  intro a
  induction a with
  | nil =>
    intro b _
    show breakOn [x, y] (x :: (y :: b)) = some ([], b)
    unfold breakOn
    rw [if_pos (List.isPrefixOf_iff_prefix.2 (⟨b, rfl⟩ : [x, y] <+: x :: y :: b))]
    rfl
  | cons c a' ih =>
    intro b ha
    have hnp : ¬ ([x, y].isPrefixOf (c :: (a' ++ [x, y] ++ b)) = true) := by
      rw [List.isPrefixOf_iff_prefix]
      intro hp
      rw [List.cons_prefix_cons] at hp
      obtain ⟨rfl, hp⟩ := hp
      cases a' with
      | nil =>
        rw [List.nil_append, List.cons_append, List.cons_prefix_cons] at hp
        exact hxy hp.1.symm
      | cons d a'' =>
        rw [List.cons_append, List.cons_append, List.cons_prefix_cons] at hp
        obtain ⟨rfl, -⟩ := hp
        exact ha (List.IsPrefix.isInfix ⟨a'', rfl⟩)
    show breakOn [x, y] (c :: (a' ++ [x, y] ++ b)) = some (c :: a', b)
    unfold breakOn
    rw [if_neg hnp, ih b (fun hi => ha (List.infix_cons hi))]

/-! ### Claim C5: unterminated quotes -/

lemma stepChar_instring_append (st : ScanState) (c q : Char) (hs : st.inString = true)
    (ht : st.inTbl = false) (hd : st.delim = some q) (hc : c ≠ q) :
    stepChar st c = { st with cur := st.cur ++ [c] } := by
  unfold stepChar
  simp only [hs, ht, hd]
  rw [if_neg (by simp), if_neg ?c2, if_neg (by simp), if_neg (by simp)]
  case c2 =>
    rintro ⟨h, -, -⟩
    injection h with h
    exact hc h.symm

lemma lookTbl_false_of_free {l : List Char}
    (h : ¬ tblKey <:+: l.map Char.toUpper) : lookTbl l = false := by
  unfold lookTbl
  rw [decide_eq_false_iff_not]
  intro hEq
  exact h (hEq ▸ (List.IsPrefix.map Char.toUpper (List.take_prefix 13 l)).isInfix)

/-- `x;'TBLPROPERTIES)y` — an unterminated quote whose remainder holds the
keyword: the claim predicts the remainder is folded into one trailing
statement, the code splits it further. -/
def exC5 : List Char := "x;".toList ++ [sq] ++ "TBLPROPERTIES)y".toList

/-- C5 counterexample: after the unterminated quote in `x;'TBLPROPERTIES)y`,
the `)` still ends a statement (the keyword lookahead fires even inside the
quote), so the remainder is not folded into a single trailing statement. -/
theorem C5_unterminated_quote_counterexample :
    splitSqlStatements exC5 =
        ["x;".toList, [sq] ++ "TBLPROPERTIES)".toList ++ [';'], "y;".toList] ∧
      splitSqlStatements exC5 ≠ ["x;".toList, [sq] ++ "TBLPROPERTIES)y".toList ++ [';']] := by
  decide

/-- C5 (amended): from any scanner state inside an open quoted literal (with
no TBLPROPERTIES region active), if the remaining input contains neither the
delimiter character nor any case-insensitive occurrence of `TBLPROPERTIES`,
the scanner appends the whole remainder to the buffer and emits nothing
more: the remainder is folded into the single trailing statement.
Concretely `split("x;'a;b")` is `["x;", "'a;b;"]`. -/
theorem C5_unterminated_quote_folds_remainder :
    (∀ (rest : List Char) (st : ScanState) (q : Char),
        st.inString = true → st.inTbl = false → st.delim = some q → q ∉ rest →
        containsSub tblKey (rest.map Char.toUpper) = false →
        scanLoop rest st = { st with cur := st.cur ++ rest }) ∧
    splitSqlStatements ("x;".toList ++ [sq] ++ "a;b".toList) =
      ["x;".toList, [sq] ++ "a;b".toList ++ [';']] := by
  constructor
  · intro rest
    induction rest with
    | nil =>
      intro st q _ _ _ _ _
      show st = _
      cases st; simp
    | cons c rest' ih =>
      intro st q hs ht hd hq hfree
      have hni := not_infix_of_containsSub_false hfree
      rw [scanLoop_cons, if_neg (by rw [lookTbl_false_of_free hni]; simp)]
      rw [stepChar_instring_append st c q hs ht hd (fun hc => hq (hc ▸ List.mem_cons_self c rest'))]
      rw [ih { st with cur := st.cur ++ [c] } q hs ht hd
        (fun hm => hq (List.mem_cons_of_mem c hm))
        (by
          rw [← Bool.not_eq_true]
          intro hc
          exact hni (List.infix_cons ((containsSub_spec _ _).1 hc)))]
      simp
  · decide

theorem C5_unterminated_quote_folds_remainder_witness :
    scanLoop ("b;c".toList) (⟨[], ['a'], true, false, some sq⟩ : ScanState) =
      { (⟨[], ['a'], true, false, some sq⟩ : ScanState) with cur := ['a'] ++ "b;c".toList } :=
  C5_unterminated_quote_folds_remainder.1 _ _ sq rfl rfl rfl (by decide) (by decide)

/-! ### Claim C8: block-comment stripping with protected markers -/

lemma removeBlockFuel_congr :
    ∀ (f1 f2 : Nat) (l : List Char), l.length < f1 → l.length < f2 →
      removeBlockFuel f1 l = removeBlockFuel f2 l := by
  intro f1
  induction f1 with
  | zero => intro f2 l h1 _; exact absurd h1 (Nat.not_lt_zero _)
  | succ n ih =>
    intro f2 l h1 h2
    cases f2 with
    | zero => exact absurd h2 (Nat.not_lt_zero _)
    | succ m =>
      show removeBlockFuel (n + 1) l = removeBlockFuel (m + 1) l
      unfold removeBlockFuel
      split
      · rfl
      · split
        · rfl
        · rename_i o1 pre rest hbr o2 mid post hbr2
          have e1 := congrArg List.length (breakOn_eq_append hbr)
          have e2 := congrArg List.length (breakOn_eq_append hbr2)
          simp only [List.length_append, slashStar, starSlash, List.length_cons,
            List.length_nil] at e1 e2
          rw [ih m post (by omega) (by omega)]

lemma removeBlockFuel_step (fuel : Nat) (l pre rest mid post : List Char)
    (hb1 : breakOn slashStar l = some (pre, rest))
    (hb2 : breakOn starSlash rest = some (mid, post)) :
    removeBlockFuel (fuel + 1) l =
      pre ++ remove_comments (slashStar ++ mid ++ starSlash) ++ removeBlockFuel fuel post := by
  conv_lhs => unfold removeBlockFuel
  split
  · rename_i heq
    rw [heq] at hb1; cases hb1
  · rename_i o1 pre' rest' heq
    rw [heq] at hb1
    obtain ⟨rfl, rfl⟩ : pre' = pre ∧ rest' = rest := by
      simpa [Prod.ext_iff] using hb1
    split
    · rename_i heq2
      rw [heq2] at hb2; cases hb2
    · rename_i o2 mid' post' heq2
      rw [heq2] at hb2
      obtain ⟨rfl, rfl⟩ : mid' = mid ∧ post' = post := by
        simpa [Prod.ext_iff] using hb2
      rfl

/-- The main behaviour of the block-comment pass: the first block-comment
span is handed to `remove_comments` (kept verbatim when protected, dropped
otherwise) and scanning resumes after the span. -/
lemma removeBlock_eq (pre mid post : List Char)
    (hpre : containsSub slashStar pre = false) (hmid : containsSub starSlash mid = false) :
    removeBlock (pre ++ slashStar ++ mid ++ starSlash ++ post) =
      pre ++ remove_comments (slashStar ++ mid ++ starSlash) ++ removeBlock post := by
  have hpre' := not_infix_of_containsSub_false hpre
  have hmid' := not_infix_of_containsSub_false hmid
  have hb1 : breakOn slashStar (pre ++ slashStar ++ mid ++ starSlash ++ post) =
      some (pre, mid ++ starSlash ++ post) := by
    have := breakOn_first (show '/' ≠ '*' by decide) (mid ++ starSlash ++ post) hpre'
    simpa [slashStar, List.append_assoc] using this
  have hb2 : breakOn starSlash (mid ++ starSlash ++ post) = some (mid, post) := by
    have := breakOn_first (show '*' ≠ '/' by decide) post hmid'
    simpa [starSlash, List.append_assoc] using this
  have hlen : (pre ++ slashStar ++ mid ++ starSlash ++ post).length =
      pre.length + 2 + mid.length + 2 + post.length := by
    simp only [List.length_append, slashStar, starSlash, List.length_cons, List.length_nil]
  unfold removeBlock
  rw [removeBlockFuel_step _ _ _ _ _ _ hb1 hb2,
    removeBlockFuel_congr (pre ++ slashStar ++ mid ++ starSlash ++ post).length
      (post.length + 1) post (by omega) (by omega)]

/-- C8: during block-comment processing every `/* ... */` span (non-greedy,
across line breaks) is passed to `remove_comments`, which keeps it verbatim
exactly when its text contains, case-insensitively, `TBLPROPERTIES`,
`CREATE ` or `SCHEMA `, and replaces it by the empty string otherwise;
concretely a `CREATE`-marked comment is kept and an unmarked one is
dropped. -/
theorem C8_block_comments_protected_or_removed :
    (∀ pre mid post : List Char,
        containsSub slashStar pre = false → containsSub starSlash mid = false →
        removeBlock (pre ++ slashStar ++ mid ++ starSlash ++ post) =
          pre ++ remove_comments (slashStar ++ mid ++ starSlash) ++ removeBlock post) ∧
    (∀ content : List Char,
        remove_comments content = if protectedComment content then content else []) ∧
    removeBlock ("a /* CREATE t */ b".toList) = "a /* CREATE t */ b".toList ∧
    removeBlock ("a /* note */ b".toList) = "a  b".toList :=
  ⟨removeBlock_eq, fun _ => rfl, by decide, by decide⟩

theorem C8_block_comments_protected_or_removed_witness :
    removeBlock ("a ".toList ++ slashStar ++ " x ".toList ++ starSlash ++ " b".toList) =
      "a ".toList ++ remove_comments (slashStar ++ " x ".toList ++ starSlash) ++
        removeBlock (" b".toList) :=
  C8_block_comments_protected_or_removed.1 _ _ _ (by decide) (by decide)

/-! ### Claim C9: line comments are removed before block comments -/

/-- C9: single-line `--` comment removal runs on the whole text before the
block-comment pass (definitional order of `preprocess`), so a `--` inside a
`/* ... */` block deletes the rest of that line — including a closing `*/` —
before the protected-marker test, and `--` removal also applies inside
string literals.  Concretely the protected comment `/* CREATE x -- y */`
followed by `z;` is not preserved character-for-character, and
`SELECT 'a--b';` is cut inside the literal. -/
theorem C9_line_comment_removal_first :
    (∀ l : List Char, preprocess l = normalizeLines (removeBlock (cutLineComments l))) ∧
    preprocess ("/* CREATE x -- y */".toList ++ ['\n'] ++ "z;".toList) =
      "/* CREATE x".toList ++ ['\n'] ++ "z;".toList ∧
    preprocess ("SELECT ".toList ++ [sq] ++ "a--b".toList ++ [sq] ++ ";".toList) =
      "SELECT ".toList ++ [sq] ++ ['a'] :=
  ⟨fun _ => rfl, by decide, by decide⟩

/-! ### Claim C7: basic facts about the lookahead-free scanner -/

lemma scanNT_cons (c : Char) (l : List Char) (st : ScanState) :
    scanNT (c :: l) st = scanNT l (stepChar st c) := rfl

lemma scanNT_append (a b : List Char) (st : ScanState) :
    scanNT (a ++ b) st = scanNT b (scanNT a st) := List.foldl_append _ _ a b

lemma scanNT_snoc (a : List Char) (c : Char) (st : ScanState) :
    scanNT (a ++ [c]) st = stepChar (scanNT a st) c := by
  rw [scanNT_append]; rfl

lemma stepChar_inTbl (st : ScanState) (c : Char) (h : st.inTbl = false) :
    (stepChar st c).inTbl = false := by
  unfold stepChar
  split_ifs <;> simp [h]

lemma scanNT_inTbl (l : List Char) (st : ScanState) (h : st.inTbl = false) :
    (scanNT l st).inTbl = false := by
  induction l generalizing st with
  | nil => exact h
  | cons c rest ih => rw [scanNT_cons]; exact ih _ (stepChar_inTbl st c h)

/-- Whenever the scanner is inside a string, the remembered delimiter is one
of the three quote characters. -/
def QuoteInv (st : ScanState) : Prop :=
  st.inString = true → ∃ q, isQuoteChar q = true ∧ st.delim = some q

lemma stepChar_quoteInv (st : ScanState) (c : Char) (h : QuoteInv st) :
    QuoteInv (stepChar st c) := by
  unfold stepChar
  split_ifs with h1 h2 h3 h4 h5 h6
  · exact fun _ => ⟨c, h1.1, rfl⟩
  · intro hc; simp at hc
  · exact fun hc => h hc
  · exact fun hc => h hc
  · exact fun hc => h hc
  · exact fun hc => h hc
  · exact fun hc => h hc

lemma scanNT_quoteInv (l : List Char) (st : ScanState) (h : QuoteInv st) :
    QuoteInv (scanNT l st) := by
  induction l generalizing st with
  | nil => exact h
  | cons c rest ih => rw [scanNT_cons]; exact ih _ (stepChar_quoteInv st c h)

lemma pySpace_not_quote (c : Char) (h : isPySpace c = true) : isQuoteChar c = false := by
  unfold isPySpace at h
  simp only [Bool.or_eq_true, decide_eq_true_eq] at h
  rcases h with ((((h | h) | h) | h) | h) | h <;> subst h <;> decide

lemma pySpace_ne_semi (c : Char) (h : isPySpace c = true) : c ≠ ';' := by
  unfold isPySpace at h
  simp only [Bool.or_eq_true, decide_eq_true_eq] at h
  rcases h with ((((h | h) | h) | h) | h) | h <;> subst h <;> decide

/-- Whitespace characters are inert: they are appended to the buffer and
change no flag. -/
lemma scanNT_ws (ws : List Char) (hws : ∀ x ∈ ws, isPySpace x = true) :
    ∀ st : ScanState, QuoteInv st → st.inTbl = false →
      scanNT ws st = { st with cur := st.cur ++ ws } := by
  induction ws with
  | nil => intro st _ _; cases st; simp [scanNT]
  | cons c rest ih =>
    intro st hq ht
    have hc := hws c (List.mem_cons_self c rest)
    have hstep : stepChar st c = { st with cur := st.cur ++ [c] } := by
      unfold stepChar
      simp only [ht]
      rw [if_neg (by simp [pySpace_not_quote c hc]), if_neg ?c2,
        if_neg (by rintro ⟨h3, -⟩; exact pySpace_ne_semi c hc h3), if_neg (by simp)]
      case c2 =>
        rintro ⟨hdc, hst, -⟩
        obtain ⟨q, hqq, hdq⟩ := hq hst
        rw [hdq] at hdc
        injection hdc with hh
        subst hh
        rw [pySpace_not_quote q hc] at hqq
        cases hqq
    rw [scanNT_cons, hstep,
      ih (fun x hx => hws x (List.mem_cons_of_mem c hx)) { st with cur := st.cur ++ [c] }
        (fun hb => hq hb) ht]
    simp

/-- Prepending already-collected statements commutes with the scan. -/
def shiftStmts (p : List (List Char)) (st : ScanState) : ScanState :=
  ⟨p ++ st.stmts, st.cur, st.inString, st.inTbl, st.delim⟩

lemma stepChar_shift (p : List (List Char)) (st : ScanState) (c : Char) :
    stepChar (shiftStmts p st) c = shiftStmts p (stepChar st c) := by
  unfold shiftStmts stepChar
  dsimp only
  split_ifs <;> simp

lemma scanNT_shift (l : List Char) (p : List (List Char)) (st : ScanState) :
    scanNT l (shiftStmts p st) = shiftStmts p (scanNT l st) := by
  induction l generalizing st with
  | nil => rfl
  | cons c rest ih => rw [scanNT_cons, stepChar_shift, ih, scanNT_cons]

lemma quote_not_space (c : Char) (h : isQuoteChar c = true) : isPySpace c = false := by
  unfold isQuoteChar at h
  simp only [Bool.or_eq_true, decide_eq_true_eq] at h
  rcases h with (h | h) | h <;> subst h <;> decide

lemma dropWhile_snoc_not (l : List Char) (c : Char) (hc : isPySpace c = false) :
    (l ++ [c]).dropWhile isPySpace = l.dropWhile isPySpace ++ [c] := by
  rw [List.dropWhile_append]
  split_ifs with h
  · simp only [List.isEmpty_iff] at h
    rw [h, List.nil_append]
    simp [List.dropWhile, hc]
  · rfl

lemma dropWhile_snoc_ws_nil (l : List Char) (c : Char) (hl : l.dropWhile isPySpace = [])
    (hc : isPySpace c = true) : (l ++ [c]).dropWhile isPySpace = [] := by
  rw [List.dropWhile_append, if_pos (by simp [hl])]
  simp [List.dropWhile, hc]

lemma dropWhile_snoc_ne (l : List Char) (c : Char) (hl : l.dropWhile isPySpace ≠ []) :
    (l ++ [c]).dropWhile isPySpace = l.dropWhile isPySpace ++ [c] := by
  rw [List.dropWhile_append, if_neg (by simpa [List.isEmpty_iff] using hl)]

/-- Any list is its own back-strip followed by trailing whitespace. -/
lemma exists_ws_suffix (X : List Char) :
    ∃ s, (∀ x ∈ s, isPySpace x = true) ∧ X = (X.reverse.dropWhile isPySpace).reverse ++ s := by
  refine ⟨(X.reverse.takeWhile isPySpace).reverse, ?_, ?_⟩
  · intro x hx
    exact List.mem_takeWhile_imp (List.mem_reverse.1 hx)
  · conv_lhs => rw [← List.reverse_reverse X,
      ← List.takeWhile_append_dropWhile (p := isPySpace) (l := X.reverse)]
    rw [List.reverse_append]

lemma pyStrip_sub (l : List Char) : pyStrip l <:+: l := by
  have h1 : pyStrip l <+: l.dropWhile isPySpace := by
    rw [← List.reverse_suffix]
    unfold pyStrip
    rw [List.reverse_reverse]
    exact List.dropWhile_suffix isPySpace
  exact h1.isInfix.trans (List.dropWhile_suffix isPySpace).isInfix

/-- Scanning text followed by trailing whitespace only appends the
whitespace afterwards. -/
lemma scanNT_ws_tail (S s : List Char) (hs : ∀ x ∈ s, isPySpace x = true) (st : ScanState)
    (hq : QuoteInv st) (ht : st.inTbl = false) :
    scanNT (S ++ s) st = { scanNT S st with cur := (scanNT S st).cur ++ s } := by
  rw [scanNT_append, scanNT_ws s hs _ (scanNT_quoteInv _ _ hq) (scanNT_inTbl _ _ ht)]

/-- The "good so far" invariant: rescanning the front-stripped buffer from a
fresh state with any starting delimiter rebuilds exactly that buffer with no
emission and no TBLPROPERTIES flag, ends in string state `b`, and — when `b`
is set — remembers exactly the delimiter `dd`. -/
def Gsf (fcur : List Char) (b : Bool) (dd : Option Char) : Prop :=
  ∀ d : Option Char,
    (scanNT fcur ⟨[], [], false, false, d⟩).stmts = [] ∧
    (scanNT fcur ⟨[], [], false, false, d⟩).cur = fcur ∧
    (scanNT fcur ⟨[], [], false, false, d⟩).inString = b ∧
    (scanNT fcur ⟨[], [], false, false, d⟩).inTbl = false ∧
    (b = true → (scanNT fcur ⟨[], [], false, false, d⟩).delim = dd)

/-- A finished statement: non-empty, stripped, keyword-free, and rescanning
it from a fresh state with any starting delimiter rebuilds it with no
emission, ending outside any string. -/
def GoodFin (S : List Char) : Prop :=
  S ≠ [] ∧ pyStrip S = S ∧ containsSub tblKey (S.map Char.toUpper) = false ∧
  ∀ d : Option Char,
    (scanNT S ⟨[], [], false, false, d⟩).stmts = [] ∧
    (scanNT S ⟨[], [], false, false, d⟩).cur = S ∧
    (scanNT S ⟨[], [], false, false, d⟩).inString = false ∧
    (scanNT S ⟨[], [], false, false, d⟩).inTbl = false

lemma gsf_nil (dd : Option Char) : Gsf [] false dd :=
  fun _ => ⟨rfl, rfl, rfl, rfl, fun h => by cases h⟩

/-! Conditional one-step lemmas used by the main invariant. -/

lemma stepChar_quote_open (X : ScanState) (c : Char) (hq : isQuoteChar c = true)
    (hs : X.inString = false) (ht : X.inTbl = false) :
    stepChar X c = { X with inString := true, delim := some c, cur := X.cur ++ [c] } := by
  unfold stepChar
  rw [if_pos ⟨hq, hs, ht⟩]

lemma stepChar_quote_close (X : ScanState) (c : Char) (hd : X.delim = some c)
    (hs : X.inString = true) (ht : X.inTbl = false) :
    stepChar X c = { X with inString := false, cur := X.cur ++ [c] } := by
  unfold stepChar
  rw [if_neg (by simp [hs]), if_pos ⟨hd, hs, ht⟩]

lemma stepChar_semi_out (X : ScanState) (hs : X.inString = false) (ht : X.inTbl = false) :
    stepChar X ';' =
      { X with
        stmts := if pyStrip X.cur = [] then X.stmts else X.stmts ++ [pyStrip X.cur],
        cur := [] } := by
  unfold stepChar
  rw [if_neg (by rintro ⟨h, -⟩; exact absurd h (by decide)),
    if_neg (by simp [hs]), if_pos ⟨rfl, hs, ht⟩]

lemma stepChar_else (X : ScanState) (c : Char)
    (h1 : ¬(isQuoteChar c = true ∧ X.inString = false))
    (h2 : ¬(X.delim = some c ∧ X.inString = true))
    (h3 : ¬(c = ';' ∧ X.inString = false))
    (ht : X.inTbl = false) :
    stepChar X c = { X with cur := X.cur ++ [c] } := by
  unfold stepChar
  rw [if_neg (by rintro ⟨a, b, -⟩; exact h1 ⟨a, b⟩),
    if_neg (by rintro ⟨a, b, -⟩; exact h2 ⟨a, b⟩),
    if_neg (by rintro ⟨a, b, -⟩; exact h3 ⟨a, b⟩),
    if_neg (by rintro ⟨-, h⟩; rw [ht] at h; cases h)]

lemma scanNT_nil (st : ScanState) : scanNT [] st = st := rfl

/-- Keyword-freedom is inherited along infixes. -/
lemma free_of_sub {A B : List Char} (h : containsSub tblKey (B.map Char.toUpper) = false)
    (hAB : A <:+: B) : containsSub tblKey (A.map Char.toUpper) = false := by
  rw [Bool.eq_false_iff]
  intro hc
  exact (not_infix_of_containsSub_false h)
    (((containsSub_spec _ _).1 hc).trans (List.IsInfix.map Char.toUpper hAB))

/-- Main invariant of the lookahead-free scan on keyword-free input `W`:
every statement the scan emits is finished (`GoodFin`), and the
front-stripped buffer always rescans to itself (`Gsf`). -/
lemma scanNT_char (W : List Char) (hW : containsSub tblKey (W.map Char.toUpper) = false) :
    ∀ (l : List Char) (stmts : List (List Char)) (cur : List Char) (b : Bool) (dd : Option Char),
      (b = true → ∃ q, isQuoteChar q = true ∧ dd = some q) →
      Gsf (cur.dropWhile isPySpace) b dd →
      cur ++ l <:+: W →
      ∃ new,
        (scanNT l ⟨stmts, cur, b, false, dd⟩).stmts = stmts ++ new ∧
        (∀ S ∈ new, GoodFin S) ∧
        Gsf ((scanNT l ⟨stmts, cur, b, false, dd⟩).cur.dropWhile isPySpace)
          (scanNT l ⟨stmts, cur, b, false, dd⟩).inString
          (scanNT l ⟨stmts, cur, b, false, dd⟩).delim ∧
        ((scanNT l ⟨stmts, cur, b, false, dd⟩).inString = true →
          ∃ q, isQuoteChar q = true ∧ (scanNT l ⟨stmts, cur, b, false, dd⟩).delim = some q) ∧
        (scanNT l ⟨stmts, cur, b, false, dd⟩).cur <:+: W ∧
        (scanNT l ⟨stmts, cur, b, false, dd⟩).inTbl = false := by
  intro l
  induction l with
  | nil =>
    intro stmts cur b dd hqi hgsf hinf
    refine ⟨[], (List.append_nil stmts).symm, fun S hS => absurd hS (List.not_mem_nil S),
      hgsf, hqi, ?_, rfl⟩
    rw [List.append_nil] at hinf
    exact hinf
  | cons c rest ih =>
    intro stmts cur b dd hqi hgsf hinf
    have hinf2 : (cur ++ [c]) ++ rest <:+: W := by simpa [List.append_assoc] using hinf
    have hinfr : rest <:+: W :=
      (List.IsSuffix.isInfix ⟨cur ++ [c], by simp⟩).trans hinf
    rw [scanNT_cons]
    by_cases hq : isQuoteChar c = true ∧ b = false
    · -- a quote opens a string
      rw [stepChar_quote_open ⟨stmts, cur, b, false, dd⟩ c hq.1 hq.2 rfl]
      have hgsf' : Gsf ((cur ++ [c]).dropWhile isPySpace) true (some c) := by
        intro d
        rw [dropWhile_snoc_not _ c (quote_not_space c hq.1), scanNT_snoc]
        obtain ⟨g1, g2, g3, g4, -⟩ := hgsf d
        rw [stepChar_quote_open _ c hq.1 (by rw [g3, hq.2]) g4]
        exact ⟨g1, by rw [g2], rfl, g4, fun _ => rfl⟩
      exact ih stmts (cur ++ [c]) true (some c) (fun _ => ⟨c, hq.1, rfl⟩) hgsf' hinf2
    · by_cases hd : dd = some c ∧ b = true
      · -- the delimiter closes the string
        obtain ⟨q, hqq, hdq⟩ := hqi hd.2
        have hcq : c = q := by
          rw [hd.1] at hdq
          injection hdq with h
        subst hcq
        rw [stepChar_quote_close ⟨stmts, cur, b, false, dd⟩ c hd.1 hd.2 rfl]
        have hgsf' : Gsf ((cur ++ [c]).dropWhile isPySpace) false dd := by
          intro d
          rw [dropWhile_snoc_not _ c (quote_not_space c hqq), scanNT_snoc]
          obtain ⟨g1, g2, g3, g4, g5⟩ := hgsf d
          rw [stepChar_quote_close _ c (by rw [g5 hd.2]; exact hd.1) (by rw [g3, hd.2]) g4]
          exact ⟨g1, by rw [g2], rfl, g4, fun h => absurd h (by simp)⟩
        exact ih stmts (cur ++ [c]) false dd (fun h => absurd h (by simp)) hgsf' hinf2
      · by_cases hsemi : c = ';' ∧ b = false
        · -- a splitting semicolon
          obtain ⟨hc, hb⟩ := hsemi
          subst hc
          subst hb
          rw [stepChar_semi_out ⟨stmts, cur, false, false, dd⟩ rfl rfl]
          have hcurW : cur <:+: W := (List.prefix_append cur (';' :: rest)).isInfix.trans hinf
          by_cases hemit : pyStrip cur = []
          · rw [if_pos hemit]
            obtain ⟨new, h1, h2, h3, h4, h5, h6⟩ :=
              ih stmts [] false dd (fun h => absurd h (by simp)) (gsf_nil dd)
                (by simpa using hinfr)
            exact ⟨new, h1, h2, h3, h4, h5, h6⟩
          · rw [if_neg hemit]
            have hgood : GoodFin (pyStrip cur) := by
              refine ⟨hemit, pyStrip_idem cur, ?_, ?_⟩
              · exact free_of_sub hW ((pyStrip_sub cur).trans hcurW)
              · intro d
                obtain ⟨g1, g2, g3, g4, -⟩ := hgsf d
                obtain ⟨s, hs, hdecomp⟩ := exists_ws_suffix (cur.dropWhile isPySpace)
                rw [show ((cur.dropWhile isPySpace).reverse.dropWhile isPySpace).reverse =
                  pyStrip cur from rfl] at hdecomp
                rw [hdecomp] at g1 g2 g3 g4
                rw [scanNT_ws_tail (pyStrip cur) s hs _ (fun h => absurd h (by simp)) rfl]
                  at g1 g2 g3 g4
                exact ⟨g1, List.append_cancel_right g2, g3, g4⟩
            obtain ⟨new, h1, h2, h3, h4, h5, h6⟩ :=
              ih (stmts ++ [pyStrip cur]) [] false dd (fun h => absurd h (by simp))
                (gsf_nil dd) (by simpa using hinfr)
            refine ⟨[pyStrip cur] ++ new, ?_, ?_, h3, h4, h5, h6⟩
            · rw [h1, List.append_assoc]
            · intro S hS
              rcases List.mem_append.1 hS with h | h
              · rw [List.mem_singleton.1 h]; exact hgood
              · exact h2 S h
        · -- ordinary character: appended to the buffer
          rw [stepChar_else ⟨stmts, cur, b, false, dd⟩ c
            (fun h => hq ⟨h.1, h.2⟩) (fun h => hd ⟨h.1, h.2⟩) (fun h => hsemi ⟨h.1, h.2⟩) rfl]
          have hgsf' : Gsf ((cur ++ [c]).dropWhile isPySpace) b dd := by
            by_cases hws : cur.dropWhile isPySpace = [] ∧ isPySpace c = true
            · rw [dropWhile_snoc_ws_nil _ c hws.1 hws.2]
              have hb : b = false := by
                have := (hgsf none).2.2.1
                rw [hws.1] at this
                exact this.symm
              rw [hb]
              exact gsf_nil dd
            · have hsnoc : (cur ++ [c]).dropWhile isPySpace =
                  cur.dropWhile isPySpace ++ [c] := by
                by_cases hne : cur.dropWhile isPySpace = []
                · have hcs : isPySpace c = false := by
                    rcases Bool.eq_false_or_eq_true (isPySpace c) with h | h
                    · exact absurd ⟨hne, h⟩ hws
                    · exact h
                  exact dropWhile_snoc_not _ c hcs
                · exact dropWhile_snoc_ne _ c hne
              rw [hsnoc]
              intro d
              rw [scanNT_snoc]
              obtain ⟨g1, g2, g3, g4, g5⟩ := hgsf d
              rw [stepChar_else (scanNT (cur.dropWhile isPySpace) ⟨[], [], false, false, d⟩) c
                (by rw [g3]; exact fun h => hq ⟨h.1, h.2⟩)
                (by
                  rintro ⟨hdc, hbt⟩
                  rw [g3] at hbt
                  rw [g5 hbt] at hdc
                  exact hd ⟨hdc, hbt⟩)
                (by rintro ⟨hc1, hc2⟩; rw [g3] at hc2; exact hsemi ⟨hc1, hc2⟩)
                g4]
              exact ⟨g1, by rw [g2], g3, g4, fun hb => g5 hb⟩
          exact ih stmts (cur ++ [c]) b dd hqi hgsf' hinf2

/-! Keyword occurrences cannot cross a `;` separator. -/

lemma prefix_of_prefix_append {K D B : List Char} (h : K <+: D ++ B) (hlen : K.length ≤ D.length) :
    K <+: D := by
  have hK := List.prefix_iff_eq_take.1 h
  rw [List.take_append_eq_append_take, Nat.sub_eq_zero_of_le hlen, List.take_zero,
    List.append_nil] at hK
  rw [hK]
  exact List.take_prefix _ _

lemma not_infix_append {K A B : List Char} (hK : ';' ∉ K) (hA : ¬ K <:+: A) (hB : ¬ K <:+: B)
    (hsep : A.getLast? = some ';') : ¬ K <:+: A ++ B := by
  intro h
  obtain ⟨t, hpre, hsuf⟩ := List.infix_iff_prefix_suffix.1 h
  have hteq := List.suffix_iff_eq_drop.1 hsuf
  set n := (A ++ B).length - t.length with hn
  rcases Nat.lt_or_ge n A.length with hlt | hge
  · -- the suffix starts inside `A`
    have hD : t = A.drop n ++ B := by
      rw [hteq, List.drop_append_eq_append_drop, Nat.sub_eq_zero_of_le (Nat.le_of_lt hlt),
        List.drop_zero]
    have hDne : A.drop n ≠ [] := by
      intro h0
      have := congrArg List.length h0
      rw [List.length_drop] at this
      simp only [List.length_nil] at this
      omega
    rcases le_or_lt K.length (A.drop n).length with hle | hgt
    · -- the occurrence fits inside `A`
      exact hA ((prefix_of_prefix_append (hD ▸ hpre) hle).isInfix.trans
        (List.drop_suffix n A).isInfix)
    · -- the occurrence covers the final `;` of `A`
      have hKeq := List.prefix_iff_eq_take.1 (hD ▸ hpre)
      rw [List.take_append_eq_append_take, List.take_of_length_le (Nat.le_of_lt hgt)] at hKeq
      have hmem : ';' ∈ A.drop n := by
        apply List.mem_of_mem_getLast?
        have hgl := getLast?_of_suffix (List.drop_suffix n A) hDne
        rw [← hgl, hsep]
        rfl
      exact hK (by rw [hKeq]; exact List.mem_append.2 (Or.inl hmem))
  · -- the suffix lies inside `B`
    have hD : t = B.drop (n - A.length) := by
      rw [hteq, List.drop_append_eq_append_drop, List.drop_eq_nil_of_le hge, List.nil_append]
    exact hB ((hD ▸ hpre).isInfix.trans (List.drop_suffix _ B).isInfix)

lemma not_infix_concat_semi {K S : List Char} (hK : ';' ∉ K) (hS : ¬ K <:+: S) :
    ¬ K <:+: S ++ [';'] := by
  intro h
  obtain ⟨t, hpre, hsuf⟩ := List.infix_iff_prefix_suffix.1 h
  rcases List.eq_nil_or_concat t with rfl | ⟨u, a, rfl⟩
  · -- empty suffix: K = [] is an infix of S, contradiction with hS
    exact hS ((List.prefix_nil.1 hpre) ▸ List.nil_infix)
  · rw [List.concat_eq_append] at hpre hsuf
    have ha : a = ';' := by
      have hgl := getLast?_of_suffix hsuf (by simp)
      simp only [List.getLast?_concat] at hgl
      injection hgl with h'
      exact h'.symm
    subst ha
    have hu : u <:+ S := by
      obtain ⟨p, hp⟩ := hsuf
      rw [← List.append_assoc] at hp
      exact ⟨p, List.append_cancel_right hp⟩
    rcases le_or_lt K.length u.length with hle | hgt
    · exact hS ((prefix_of_prefix_append hpre hle).isInfix.trans hu.isInfix)
    · have hKeq := List.prefix_iff_eq_take.1 hpre
      rw [List.take_append_eq_append_take, List.take_of_length_le (Nat.le_of_lt hgt)] at hKeq
      have : K.length ≤ (u ++ [';']).length := hpre.length_le
      rw [List.length_append, List.length_singleton] at this
      have htake : List.take (K.length - u.length) [';'] = [';'] :=
        List.take_of_length_le (by rw [List.length_singleton]; omega)
      rw [htake] at hKeq
      exact hK (by rw [hKeq]; exact List.mem_append.2 (Or.inr (by simp)))

/-- Formatting preserves keyword-freedom. -/
lemma free_formatStmt {S : List Char} (h : containsSub tblKey (S.map Char.toUpper) = false) :
    containsSub tblKey ((formatStmt S).map Char.toUpper) = false := by
  unfold formatStmt
  split_ifs with he
  · exact h
  · rw [Bool.eq_false_iff]
    intro hc
    have hinfix := (containsSub_spec _ _).1 hc
    rw [List.map_append] at hinfix
    have e : List.map Char.toUpper [';'] = [';'] := by decide
    rw [e] at hinfix
    exact not_infix_concat_semi (K := tblKey) (by decide)
      (not_infix_of_containsSub_false h) hinfix

/-- A flattened list of keyword-free, `;`-terminated statements is
keyword-free. -/
lemma free_flatten (L : List (List Char))
    (h : ∀ S ∈ L, containsSub tblKey (S.map Char.toUpper) = false ∧ S.getLast? = some ';') :
    containsSub tblKey (L.flatten.map Char.toUpper) = false := by
  induction L with
  | nil => decide
  | cons S L' ih =>
    rw [List.flatten_cons, List.map_append, Bool.eq_false_iff]
    obtain ⟨hf, hl⟩ := h S (List.mem_cons_self S L')
    intro hc
    refine not_infix_append (by decide) (not_infix_of_containsSub_false hf)
      (not_infix_of_containsSub_false (ih (fun T hT => h T (List.mem_cons_of_mem S hT))))
      ?_ ((containsSub_spec _ _).1 hc)
    rw [List.getLast?_map, hl]
    rfl

/-- On keyword-free input the lookahead never fires, so the two loops agree. -/
lemma scanLoop_eq_scanNT (l : List Char) (st : ScanState) (ht : st.inTbl = false)
    (hfree : containsSub tblKey (l.map Char.toUpper) = false) :
    scanLoop l st = scanNT l st := by
  induction l generalizing st with
  | nil => rfl
  | cons c rest ih =>
    rw [scanLoop_cons,
      lookTbl_false_of_free (not_infix_of_containsSub_false hfree), if_neg (by simp)]
    exact ih (stepChar st c) (stepChar_inTbl st c ht)
      (free_of_sub hfree (List.suffix_cons c rest).isInfix)

/-- A finished statement never ends in `;`: its terminator was consumed. -/
lemma goodFin_last {S : List Char} (h : GoodFin S) : S.getLast? ≠ some ';' := by
  intro hlast
  obtain ⟨hne, hstrip, hfree, hres⟩ := h
  rcases List.eq_nil_or_concat S with rfl | ⟨S₀, a, rfl⟩
  · exact hne rfl
  · rw [List.concat_eq_append] at hlast hres hne
    have ha : a = ';' := by
      rw [List.getLast?_concat] at hlast
      injection hlast with h'
    subst ha
    obtain ⟨g1, g2, g3, g4⟩ := hres none
    rw [scanNT_snoc] at g1 g2 g3
    have hq := scanNT_quoteInv S₀ (⟨[], [], false, false, none⟩ : ScanState)
      (fun hh => absurd hh (by simp))
    have ht := scanNT_inTbl S₀ (⟨[], [], false, false, none⟩ : ScanState) rfl
    rcases Bool.eq_false_or_eq_true
        (scanNT S₀ (⟨[], [], false, false, none⟩ : ScanState)).inString with hs | hs
    · -- string still open after `S₀`: the final state would be in-string
      rw [stepChar_else _ ';'
        (by rintro ⟨a, -⟩; exact absurd a (by decide))
        (by
          rintro ⟨hd2, -⟩
          obtain ⟨q, hqq, hdq⟩ := hq hs
          rw [hdq] at hd2
          injection hd2 with hh
          subst hh
          exact absurd hqq (by decide))
        (by rintro ⟨-, hb⟩; rw [hs] at hb; simp at hb)
        ht] at g3
      rw [hs] at g3
      simp at g3
    · -- string closed: the `;` would reset the buffer
      rw [stepChar_semi_out _ hs ht] at g2
      simp at g2

lemma formatStmt_last (S : List Char) : (formatStmt S).getLast? = some ';' := by
  unfold formatStmt
  split_ifs with he
  · exact of_decide_eq_true he
  · exact List.getLast?_concat S

lemma formatStmt_of_goodFin {S : List Char} (h : GoodFin S) : formatStmt S = S ++ [';'] := by
  unfold formatStmt
  rw [if_neg]
  intro hc
  exact goodFin_last h (of_decide_eq_true hc)

/-- Rescanning the concatenation of `;`-terminated finished statements emits
exactly those statements. -/
lemma scanNT_assemble (L : List (List Char)) (h : ∀ S ∈ L, GoodFin S) :
    ∀ (stmts : List (List Char)) (d : Option Char),
      ∃ d', scanNT (List.flatten (L.map (fun S => S ++ [';']))) ⟨stmts, [], false, false, d⟩ =
        ⟨stmts ++ L, [], false, false, d'⟩ := by
  induction L with
  | nil =>
    intro stmts d
    exact ⟨d, by simp [scanNT_nil]⟩
  | cons S L' ih =>
    intro stmts d
    obtain ⟨hne, hstrip, hfree, hres⟩ := h S (List.mem_cons_self S L')
    rw [List.map_cons, List.flatten_cons, scanNT_append]
    have hstate : (⟨stmts, [], false, false, d⟩ : ScanState) =
        shiftStmts stmts ⟨[], [], false, false, d⟩ := by
      simp [shiftStmts]
    have hstep : stepChar (scanNT S ⟨[], [], false, false, d⟩) ';' =
        ⟨[S], [], false, false, (scanNT S ⟨[], [], false, false, d⟩).delim⟩ := by
      obtain ⟨g1, g2, g3, g4⟩ := hres d
      rw [stepChar_semi_out _ g3 g4, g2, hstrip, if_neg hne]
      simp [g1, g3, g4]
    have hchunk : scanNT (S ++ [';']) (⟨stmts, [], false, false, d⟩ : ScanState) =
        ⟨stmts ++ [S], [], false, false, (scanNT S ⟨[], [], false, false, d⟩).delim⟩ := by
      rw [hstate, scanNT_snoc, scanNT_shift, stepChar_shift, hstep]
      simp [shiftStmts]
    rw [hchunk]
    obtain ⟨d', hd'⟩ := ih (fun T hT => h T (List.mem_cons_of_mem S hT)) (stmts ++ [S])
      (scanNT S ⟨[], [], false, false, d⟩).delim
    refine ⟨d', ?_⟩
    rw [hd']
    simp

/-- The stripped trailing buffer rescans to itself with the same string
state and delimiter. -/
lemma trailing_props (cur : List Char) (b : Bool) (dd : Option Char)
    (hgsf : Gsf (cur.dropWhile isPySpace) b dd) :
    ∀ d, (scanNT (pyStrip cur) ⟨[], [], false, false, d⟩).stmts = [] ∧
      (scanNT (pyStrip cur) ⟨[], [], false, false, d⟩).cur = pyStrip cur ∧
      (scanNT (pyStrip cur) ⟨[], [], false, false, d⟩).inString = b ∧
      (scanNT (pyStrip cur) ⟨[], [], false, false, d⟩).inTbl = false ∧
      (b = true → (scanNT (pyStrip cur) ⟨[], [], false, false, d⟩).delim = dd) := by
  intro d
  obtain ⟨g1, g2, g3, g4, g5⟩ := hgsf d
  obtain ⟨s, hs, hdecomp⟩ := exists_ws_suffix (cur.dropWhile isPySpace)
  rw [show ((cur.dropWhile isPySpace).reverse.dropWhile isPySpace).reverse =
    pyStrip cur from rfl] at hdecomp
  rw [hdecomp] at g1 g2 g3 g4 g5
  rw [scanNT_ws_tail (pyStrip cur) s hs _ (fun h => absurd h (by simp)) rfl] at g1 g2 g3 g4 g5
  exact ⟨g1, List.append_cancel_right g2, g3, g4, g5⟩

/-- Splitting the concatenation of formatted finished statements returns
exactly those formatted statements. -/
lemma splitScan_flatten_of_goodFin (L : List (List Char)) (hall : ∀ S ∈ L, GoodFin S) :
    splitScan (List.flatten (L.map formatStmt)) = L.map formatStmt := by
  have hfmt : L.map formatStmt = L.map (fun S => S ++ [';']) :=
    List.map_congr_left (fun S hS => formatStmt_of_goodFin (hall S hS))
  have hCfree : containsSub tblKey ((List.flatten (L.map formatStmt)).map Char.toUpper)
      = false := by
    apply free_flatten
    intro T hT
    obtain ⟨S, hS, rfl⟩ := List.mem_map.1 hT
    exact ⟨free_formatStmt (hall S hS).2.2.1, formatStmt_last S⟩
  have hCbridge := scanLoop_eq_scanNT (List.flatten (L.map formatStmt)) initState rfl hCfree
  obtain ⟨d', hassem⟩ := scanNT_assemble L hall [] none
  have hrawC : rawStatements (List.flatten (L.map formatStmt)) = L := by
    unfold rawStatements
    rw [hCbridge, show initState = (⟨[], [], false, false, none⟩ : ScanState) from rfl, hfmt,
      hassem]
    rfl
  rw [splitScan_eq_map, hrawC]

/-- Splitting the concatenation of formatted finished statements followed by
a formatted trailing statement that rescans into an open string returns
exactly those formatted statements. -/
lemma splitScan_flatten_trailing (L : List (List Char)) (hall : ∀ S ∈ L, GoodFin S)
    (St : List Char) (hne : St ≠ []) (hstrip : pyStrip St = St)
    (hfr : containsSub tblKey (St.map Char.toUpper) = false)
    (q : Char) (hq : isQuoteChar q = true)
    (hres : ∀ d, (scanNT St ⟨[], [], false, false, d⟩).stmts = [] ∧
      (scanNT St ⟨[], [], false, false, d⟩).cur = St ∧
      (scanNT St ⟨[], [], false, false, d⟩).inString = true ∧
      (scanNT St ⟨[], [], false, false, d⟩).inTbl = false ∧
      (scanNT St ⟨[], [], false, false, d⟩).delim = some q) :
    splitScan (List.flatten ((L ++ [St]).map formatStmt)) = (L ++ [St]).map formatStmt := by
  have hfmt : L.map formatStmt = L.map (fun S => S ++ [';']) :=
    List.map_congr_left (fun S hS => formatStmt_of_goodFin (hall S hS))
  have hflat : List.flatten ((L ++ [St]).map formatStmt) =
      List.flatten (L.map formatStmt) ++ formatStmt St := by
    rw [List.map_append, List.flatten_append]
    simp
  have hCfree : containsSub tblKey
      ((List.flatten ((L ++ [St]).map formatStmt)).map Char.toUpper) = false := by
    apply free_flatten
    intro T hT
    obtain ⟨S, hS, rfl⟩ := List.mem_map.1 hT
    rcases List.mem_append.1 hS with h | h
    · exact ⟨free_formatStmt (hall S h).2.2.1, formatStmt_last S⟩
    · rw [List.mem_singleton.1 h]
      exact ⟨free_formatStmt hfr, formatStmt_last St⟩
  have hCbridge := scanLoop_eq_scanNT (List.flatten ((L ++ [St]).map formatStmt))
    initState rfl hCfree
  obtain ⟨d', hassem⟩ := scanNT_assemble L hall [] none
  have hstate : (⟨L, [], false, false, d'⟩ : ScanState) =
      shiftStmts L ⟨[], [], false, false, d'⟩ := by
    simp [shiftStmts]
  obtain ⟨g1, g2, g3, g4, g5⟩ := hres d'
  have hscanSt : scanNT St (⟨L, [], false, false, d'⟩ : ScanState) =
      ⟨L, St, true, false, some q⟩ := by
    rw [hstate, scanNT_shift]
    unfold shiftStmts
    rw [g1, g2, g3, g4, g5]
    simp
  by_cases hend : endsSemi St = true
  · -- the trailing statement already ends in `;`
    have hfSt : formatStmt St = St := by unfold formatStmt; rw [if_pos hend]
    have hscanC : scanNT (List.flatten ((L ++ [St]).map formatStmt)) initState =
        ⟨L, St, true, false, some q⟩ := by
      rw [hflat, scanNT_append,
        show initState = (⟨[], [], false, false, none⟩ : ScanState) from rfl, hfmt, hassem,
        show ((⟨[] ++ L, [], false, false, d'⟩ : ScanState)) =
          (⟨L, [], false, false, d'⟩ : ScanState) from by simp, hfSt, hscanSt]
    have hrawC : rawStatements (List.flatten ((L ++ [St]).map formatStmt)) = L ++ [St] := by
      unfold rawStatements
      rw [hCbridge, hscanC]
      show (if pyStrip St = [] then L else L ++ [pyStrip St]) = L ++ [St]
      rw [hstrip, if_neg hne]
    rw [splitScan_eq_map, hrawC]
  · -- a `;` is appended; inside the open string it is merely buffered
    have hfSt : formatStmt St = St ++ [';'] := by unfold formatStmt; rw [if_neg hend]
    have hstep : stepChar (⟨L, St, true, false, some q⟩ : ScanState) ';' =
        ⟨L, St ++ [';'], true, false, some q⟩ := by
      rw [stepChar_else _ ';' (by rintro ⟨a, -⟩; exact absurd a (by decide))
        (by
          rintro ⟨hdc, -⟩
          injection hdc with hh
          subst hh
          exact absurd hq (by decide))
        (by rintro ⟨-, hb⟩; simp at hb) rfl]
    have hscanC : scanNT (List.flatten ((L ++ [St]).map formatStmt)) initState =
        ⟨L, St ++ [';'], true, false, some q⟩ := by
      rw [hflat, scanNT_append,
        show initState = (⟨[], [], false, false, none⟩ : ScanState) from rfl, hfmt, hassem,
        show ((⟨[] ++ L, [], false, false, d'⟩ : ScanState)) =
          (⟨L, [], false, false, d'⟩ : ScanState) from by simp, hfSt, scanNT_snoc, hscanSt,
        hstep]
    have hstrip' : pyStrip (St ++ [';']) = St ++ [';'] :=
      pyStrip_snoc_stripped St ';' hstrip hne (by decide)
    have hrawC : rawStatements (List.flatten ((L ++ [St]).map formatStmt)) =
        L ++ [St ++ [';']] := by
      unfold rawStatements
      rw [hCbridge, hscanC]
      show (if pyStrip (St ++ [';']) = [] then L else L ++ [pyStrip (St ++ [';'])]) =
        L ++ [St ++ [';']]
      rw [hstrip', if_neg (by simp)]
    rw [splitScan_eq_map, hrawC, List.map_append, List.map_append]
    congr 1
    show [formatStmt (St ++ [';'])] = [formatStmt St]
    rw [hfSt]
    congr 1
    unfold formatStmt
    rw [if_pos (by unfold endsSemi; rw [List.getLast?_concat]; exact decide_eq_true rfl)]

/-- C7 counterexample: on `'TBLPROPERTIES);a';` the splitter is NOT a fixed
point on the concatenation of its own output.  The first pass yields
`["'TBLPROPERTIES);", ";a';"]`; rescanning the concatenation re-triggers the
TBLPROPERTIES lookahead at a shifted position and yields
`["'TBLPROPERTIES);", ";;a';"]`. -/
theorem C7_idempotence_counterexample :
    splitScan (List.flatten (splitScan exTblQuote)) ≠ splitScan exTblQuote := by
  decide

/-- C7 (amended): splitting is a fixed point on its own output for every
input whose text contains no case-insensitive occurrence of the keyword
`TBLPROPERTIES`: concatenating the returned statements (each already ending
in `;`) and re-running the splitter yields the same sequence. -/
theorem C7_split_fixed_point_without_keyword (l : List Char)
    (hfree : containsSub tblKey (l.map Char.toUpper) = false) :
    splitScan (List.flatten (splitScan l)) = splitScan l := by
  obtain ⟨new, h1, h2, h3, h4, h5, h6⟩ :=
    scanNT_char l hfree l [] [] false none (fun h => absurd h (by simp)) (gsf_nil none)
      (by simp)
  have hinit : (⟨[], [], false, false, none⟩ : ScanState) = initState := rfl
  rw [hinit] at h1 h3 h4 h5 h6
  rw [List.nil_append] at h1
  have hbridge : scanLoop l initState = scanNT l initState :=
    scanLoop_eq_scanNT l initState rfl hfree
  have hraw : rawStatements l =
      if pyStrip (scanNT l initState).cur = [] then (scanNT l initState).stmts
      else (scanNT l initState).stmts ++ [pyStrip (scanNT l initState).cur] := by
    unfold rawStatements
    rw [hbridge]
  by_cases hemit : pyStrip (scanNT l initState).cur = []
  · -- no trailing content: the output is exactly the formatted finished statements
    have hsplit : splitScan l = new.map formatStmt := by
      rw [splitScan_eq_map, hraw, if_pos hemit, h1]
    rw [hsplit]
    exact splitScan_flatten_of_goodFin new h2
  · -- trailing content: the stripped buffer becomes the last raw statement
    have hRL : rawStatements l = new ++ [pyStrip (scanNT l initState).cur] := by
      rw [hraw, if_neg hemit, h1]
    have hStfree : containsSub tblKey
        ((pyStrip (scanNT l initState).cur).map Char.toUpper) = false :=
      free_of_sub hfree ((pyStrip_sub (scanNT l initState).cur).trans h5)
    have hStstrip : pyStrip (pyStrip (scanNT l initState).cur) =
        pyStrip (scanNT l initState).cur := pyStrip_idem (scanNT l initState).cur
    have hStprop := trailing_props (scanNT l initState).cur (scanNT l initState).inString
      (scanNT l initState).delim h3
    have hsplit : splitScan l = (new ++ [pyStrip (scanNT l initState).cur]).map formatStmt := by
      rw [splitScan_eq_map, hRL]
    rw [hsplit]
    rcases Bool.eq_false_or_eq_true (scanNT l initState).inString with hbT | hbF
    · -- the scan ends inside an open string
      obtain ⟨q, hq, hdq⟩ := h4 hbT
      refine splitScan_flatten_trailing new h2 (pyStrip (scanNT l initState).cur) hemit
        hStstrip hStfree q hq ?_
      intro d
      obtain ⟨g1, g2, g3, g4, g5⟩ := hStprop d
      rw [hbT] at g3
      rw [hdq] at g5
      exact ⟨g1, g2, g3, g4, g5 hbT⟩
    · -- the scan ends outside any string: the trailing statement is finished
      refine splitScan_flatten_of_goodFin (new ++ [pyStrip (scanNT l initState).cur]) ?_
      intro S hS
      rcases List.mem_append.1 hS with h | h
      · exact h2 S h
      · rw [List.mem_singleton.1 h]
        refine ⟨hemit, hStstrip, hStfree, ?_⟩
        intro d
        obtain ⟨g1, g2, g3, g4, -⟩ := hStprop d
        rw [hbF] at g3
        exact ⟨g1, g2, g3, g4⟩

/-- Concrete instantiation of the amended C7: `SELECT 1; SELECT 2;` contains
no occurrence of TBLPROPERTIES and splitting its own split-concatenation is
the identity. -/
theorem C7_split_fixed_point_without_keyword_witness :
    containsSub tblKey (("SELECT 1; SELECT 2;".toList).map Char.toUpper) = false ∧
    splitScan (List.flatten (splitScan "SELECT 1; SELECT 2;".toList)) =
      splitScan "SELECT 1; SELECT 2;".toList :=
  ⟨by decide, C7_split_fixed_point_without_keyword "SELECT 1; SELECT 2;".toList (by decide)⟩

end DeploySchemas
